import Mathlib

/-!
Verification of the on-demand web content retrieval engine of
`backend/dynamic_scraper.py` (class `DynamicWebScraper`, class `ScrapingCache`)
and the expiry predicate of `backend/website_cache.py` (class `WebsiteCache`).

The Python code is shallowly embedded: each Python method becomes a Lean
function over explicit state; the network and the HTML parser are abstracted
as parameters (a `web : String → Option FetchedPage` environment and
already-extracted link/content records), timestamps are integers, and the
float-valued relevance score — which only ever takes natural-number values
(occurrence counts, or the constant 1.0 for an empty query) — is embedded
as `Nat`.
-/

/-! ## Python string primitives

`clean_text` (dynamic_scraper.py lines 26-32) uses `str.strip`,
`re.sub(r'\s+', ' ', ·)` and a character-class substitution; relevance
scoring uses `str.lower`, `str.split`, the substring test `in` and
`str.count`.  These are embedded over `List Char`.
-/

/-- Python `\s` / `str.strip` whitespace, restricted to the ASCII range
(space, tab, newline, carriage return, vertical tab, form feed).  The
non-ASCII Unicode whitespace code points behave identically for every
property proved below and are elided. -/
def isPySpace (c : Char) : Bool :=
  c = ' ' || c = '\t' || c = '\n' || c = '\r' || c = Char.ofNat 11 || c = Char.ofNat 12

/-- Python `\w` word characters, restricted to the ASCII range
`[a-zA-Z0-9_]` (non-ASCII Unicode letters elided, as for `isPySpace`). -/
def isPyWord (c : Char) : Bool :=
  c.isAlphanum || c = '_'

/-- Python `str.strip` from the left: drop leading whitespace. -/
def lstripWs (l : List Char) : List Char :=
  l.dropWhile isPySpace

/-- Python `str.strip` from the right: drop trailing whitespace. -/
def rstripWs (l : List Char) : List Char :=
  (l.reverse.dropWhile isPySpace).reverse

/-- Python `str.strip`: drop leading and trailing whitespace. -/
def stripWs (l : List Char) : List Char :=
  rstripWs (lstripWs l)

/-- Embedding of `re.sub(r'\s+', ' ', ·)`: replace every maximal run of
whitespace characters by a single space.  Written structurally over
two-character windows: inside a whitespace run every character but the
last is dropped, and the last one is emitted as a single `' '`. -/
def collapseWs : List Char → List Char
  | [] => []
  | [c] => if isPySpace c then [' '] else [c]
  | c :: d :: t =>
    if isPySpace c && isPySpace d then collapseWs (d :: t)
    else (if isPySpace c then ' ' else c) :: collapseWs (d :: t)

/-- The character allow-list of the second substitution in `clean_text`
(dynamic_scraper.py line 31): word characters, whitespace, and the listed
punctuation / currency characters.  Characters written via `Char.ofNat`:
39 `'`, 34 `"`, 96 backtick, 123/125 braces, 8369 peso sign. -/
def isAllowedChar (c : Char) : Bool :=
  isPyWord c || isPySpace c ||
  [ '-', '.', ',', ';', ':', '!', '?', '(', ')', '[', ']',
    Char.ofNat 123, Char.ofNat 125, '@', '#', '$', '%', '&', '*', '+', '=',
    '<', '>', '/', '\\', '|', Char.ofNat 96, '~', Char.ofNat 39,
    Char.ofNat 34, Char.ofNat 8369 ].contains c

/-- Embedding of `re.sub(r'[^\w\s...₱]', ' ', ·)`: every character outside
the allow-list is replaced by a single space. -/
def subDisallowed (l : List Char) : List Char :=
  l.map (fun c => if isAllowedChar c then c else ' ')

/-- Embedding of `DynamicWebScraper.clean_text` (dynamic_scraper.py
lines 26-32): on empty input return `""`; otherwise strip, collapse
whitespace runs to single spaces, replace disallowed characters by spaces,
and strip again. -/
def clean_text (s : String) : String :=
  if s = "" then ""
  else ⟨stripWs (subDisallowed (collapseWs (stripWs s.data)))⟩

/-- Python `str.lower`, ASCII case folding (non-ASCII elided as above). -/
def pyLower (s : String) : String :=
  ⟨s.data.map Char.toLower⟩

/-- Greedy non-overlapping occurrence count, the algorithm of Python
`str.count` for a non-empty needle: scan left to right, and after a match
skip the whole needle.  The first argument is fuel (structural recursion;
`countOcc` below supplies `h.length`, which always suffices since every
recursive call shortens the haystack). -/
def countOccAux (n : List Char) : Nat → List Char → Nat
  | 0, _ => 0
  | _, [] => 0
  | fuel + 1, c :: t =>
    if n.isPrefixOf (c :: t) && !n.isEmpty then
      1 + countOccAux n fuel (t.drop (n.length - 1))
    else
      countOccAux n fuel t

/-- Greedy non-overlapping occurrence count on character lists. -/
def countOcc (n h : List Char) : Nat :=
  countOccAux n h.length h

/-- Embedding of Python `str.count` including the empty-needle convention
`s.count('') == len(s) + 1`. -/
def pyCount (needle hay : String) : Nat :=
  if needle.data.isEmpty then hay.data.length + 1
  else countOcc needle.data hay.data

/-- Embedding of the Python substring test `needle in hay` on `List Char`. -/
def isSubstr (n : List Char) : List Char → Bool
  | [] => n.isEmpty
  | c :: t => n.isPrefixOf (c :: t) || isSubstr n t

/-- Python substring test on `String`. -/
def pyIn (needle hay : String) : Bool :=
  isSubstr needle.data hay.data

/-- Embedding of Python `str.split()` with no argument: split on runs of
whitespace, discarding empty pieces.  `acc` is the current word being
accumulated, in reverse. -/
def splitWsAux : List Char → List Char → List (List Char)
  | [], acc => if acc.isEmpty then [] else [acc.reverse]
  | c :: t, acc =>
    if isPySpace c then
      if acc.isEmpty then splitWsAux t [] else acc.reverse :: splitWsAux t []
    else splitWsAux t (c :: acc)

/-- Python `query.split()` on strings. -/
def pySplit (s : String) : List String :=
  (splitWsAux s.data []).map (fun w => ⟨w⟩)

/-- Absence of whitespace runs: no two consecutive characters of the list
are both whitespace. -/
def NoWsRun (l : List Char) : Prop :=
  l.Chain' (fun a b => isPySpace a = false ∨ isPySpace b = false)

/-- Boolean run detector: `true` iff the list contains two consecutive
whitespace characters. -/
def hasWsRun : List Char → Bool
  | c :: d :: t => (isPySpace c && isPySpace d) || hasWsRun (d :: t)
  | _ => false

/-! ## The scraping cache

Embedding of `class ScrapingCache` (dynamic_scraper.py lines 378-402).
The store `self.cache` is a map from keys to `(data, timestamp)` pairs;
`time.time()` is passed in explicitly as `now : ℤ`.  The cached value type
is a parameter `α` (the code stores `List[Dict]`). -/

structure ScrapingCache (α : Type) where
  cache : String → Option (α × ℤ)
  ttl : ℤ

/-- Embedding of `ScrapingCache.get` (lines 383-390): on a hit, return the
data if `time.time() - timestamp < self.ttl`, otherwise delete the entry
(`del self.cache[key]`) and return `None`; on a miss return `None`.  The
result is the returned value paired with the post-state of the store. -/
def ScrapingCache.get (c : ScrapingCache α) (now : ℤ) (key : String) :
    Option α × ScrapingCache α :=
  match c.cache key with
  | some (data, timestamp) =>
      if now - timestamp < c.ttl then (some data, c)
      else (none, ⟨fun k => if k = key then none else c.cache k, c.ttl⟩)
  | none => (none, c)

/-- Embedding of `ScrapingCache.set` (lines 392-393). -/
def ScrapingCache.set (c : ScrapingCache α) (now : ℤ) (key : String) (data : α) :
    ScrapingCache α :=
  ⟨fun k => if k = key then some (data, now) else c.cache k, c.ttl⟩

/-- Embedding of `ScrapingCache.clear_old` (lines 395-402): delete every
entry with `current_time - timestamp > self.ttl` (strict). -/
def ScrapingCache.clear_old (c : ScrapingCache α) (now : ℤ) : ScrapingCache α :=
  ⟨fun k => match c.cache k with
    | some (data, timestamp) =>
        if now - timestamp > c.ttl then none else some (data, timestamp)
    | none => none,
   c.ttl⟩

/-- Embedding of `WebsiteCache._is_cache_expired` (website_cache.py
lines 21-23): `time.time() - timestamp > self.cache_duration` (strict). -/
def websiteCacheExpired (cache_duration : ℤ) (timestamp : ℤ) (now : ℤ) : Bool :=
  now - timestamp > cache_duration

/-! ## Structured content and the relevance scorer

Embedding of the extracted-content record built by
`extract_structured_content` (dynamic_scraper.py lines 34-108) and of
`_build_full_text` / `_calculate_relevance` (lines 185-235).  HTML parsing
itself is abstracted: content records arrive already extracted.  The
`forms` zone is omitted: no scoring or formatting path reads it. -/

structure Heading where
  level : Nat
  text : String
  order : Nat
deriving DecidableEq

structure ContentList where
  ordered : Bool
  items : List String
deriving DecidableEq

structure PageLink where
  url : String
  text : String
  context : String
deriving DecidableEq

structure StructuredContent where
  headings : List Heading
  paragraphs : List String
  lists : List ContentList
  links : List PageLink
  steps : List String
deriving DecidableEq

/-- Strict lexicographic order on the Python sort key
`lambda x: (x['order'], x['level'])` used in `_build_full_text`. -/
def headingLt (a b : Heading) : Bool :=
  a.order < b.order || (a.order = b.order && a.level < b.level)

/-- Stable insertion: place `x` before the first element not strictly
below it. -/
def insertStable (lt : α → α → Bool) (x : α) : List α → List α
  | [] => [x]
  | y :: ys => if lt y x then y :: insertStable lt x ys else x :: y :: ys

/-- Stable sort by a strict comparator (insertion sort); agrees with
Python's stable `sorted`. -/
def sortStable (lt : α → α → Bool) : List α → List α
  | [] => []
  | x :: xs => insertStable lt x (sortStable lt xs)

/-- Python `"\n".join(parts)`. -/
def joinWith (sep : String) : List String → String
  | [] => ""
  | [x] => x
  | x :: xs => x ++ sep ++ joinWith sep xs

/-- Rendering of one content list inside `_build_full_text`
(lines 197-203): ordered lists as `"{i}. {item}"` numbered from 1,
unordered lists as `"• {item}"`. -/
def renderList (l : ContentList) : List String :=
  if l.ordered then
    (List.enumFrom 1 l.items).map (fun p => toString p.1 ++ ". " ++ p.2)
  else
    l.items.map (fun item => "• " ++ item)

/-- Embedding of `DynamicWebScraper._build_full_text` (lines 185-210):
headings sorted by `(order, level)`, then paragraphs, then rendered
lists, then the steps block (if any), joined by newlines. -/
def _build_full_text (c : StructuredContent) : String :=
  joinWith "\n"
    (((sortStable headingLt c.headings).map Heading.text)
      ++ c.paragraphs
      ++ (c.lists.map renderList).flatten
      ++ (if c.steps.isEmpty then [] else "\nSteps found:" :: c.steps))

/-- Core of `_calculate_relevance` (lines 229-234): for each
whitespace-split word of the lower-cased query, if the word occurs in the
full text, add its occurrence count to the score. -/
def scoreText (query full_text : String) : Nat :=
  (pySplit (pyLower query)).foldl
    (fun score word =>
      if pyIn word full_text then score + pyCount word full_text else score) 0

/-- Embedding of `DynamicWebScraper._calculate_relevance` (lines 212-235):
`1.0` for the empty query, otherwise the unweighted occurrence count of
query words over the lower-cased full text.  Note the local Python
`weights` dict (title 5.0, steps 4.0, headings 3.0, lists 2.0,
paragraphs 1.0, lines 221-227) is defined but never read by the function,
and the page `title` is not part of the `content` dict it receives; the
embedding mirrors the executed code. -/
def _calculate_relevance (c : StructuredContent) (query : String) : Nat :=
  if query = "" then 1
  else scoreText query (pyLower (_build_full_text c))

/-- One scraped page record as assembled by `scrape_url_with_context`
(lines 169-177); fetching and HTML parsing are abstracted, so the record
fields `url`, `title`, `description` and the structured content arrive as
inputs. -/
structure ScrapedPage where
  url : String
  title : String
  description : String
  structured_content : StructuredContent
  full_text : String
  relevance_score : Nat
deriving DecidableEq

/-- The result-dict construction of `scrape_url_with_context`
(lines 169-177): `full_text` is `_build_full_text` of the structured
content and `relevance_score` is `_calculate_relevance` against the
query.  (`scraped_at` is a wall-clock timestamp, irrelevant here.) -/
def mkScrapedPage (url title description : String) (sc : StructuredContent)
    (query : String) : ScrapedPage :=
  ⟨url, title, description, sc, _build_full_text sc, _calculate_relevance sc query⟩

/-! ## The crawler

Embedding of `find_relevant_urls` (dynamic_scraper.py lines 237-281) and
the fetch pass of `scrape_for_query` (lines 283-307).  The network and
HTML parsing are abstracted as `web : String → Option FetchedPage`
(`none` = the `requests`/parse failure branch, line 276); links arrive
with their `urljoin`-resolved absolute `href` and raw anchor text, and
`_is_valid_url`'s same-domain test (lines 136-143) is the abstract
predicate `valid`.  The loop is run on explicit fuel: `crawlRun fuel`
performs at most `fuel` iterations of the `while` loop, so every state
reachable by the loop is `crawlRun fuel init` for some fuel. -/

structure CrawlLink where
  href : String
  text : String
deriving DecidableEq

structure FetchedPage where
  text : String
  links : List CrawlLink
deriving DecidableEq

/-- The link-priority test (line 271): some query word occurs in the
cleaned lower-cased anchor text or in the lower-cased URL. -/
def linkMatchesQuery (query_words : List String) (link : CrawlLink) : Bool :=
  query_words.any (fun w =>
    pyIn w (pyLower (clean_text link.text)) || pyIn w (pyLower link.href))

/-- The page-relevance test (lines 259-260): some query word occurs in the
lower-cased page text. -/
def pageIsRelevant (query_words : List String) (p : FetchedPage) : Bool :=
  query_words.any (fun w => pyIn w (pyLower p.text))

/-- One page's link-discovery loop (lines 264-274): for each link in
document order, if it is same-domain valid and unvisited, insert it at
index 0 of the frontier when it matches the query (`to_visit.insert(0, ·)`)
and append it at the back otherwise. -/
def enqueueLinks (valid : String → Bool) (query_words : List String)
    (visited : List String) (depth : Nat) (links : List CrawlLink)
    (frontier : List (String × Nat)) : List (String × Nat) :=
  links.foldl (fun front link =>
    if valid link.href && !visited.contains link.href then
      if linkMatchesQuery query_words link then (link.href, depth + 1) :: front
      else front ++ [(link.href, depth + 1)]
    else front) frontier

/-- Crawl loop state: collected relevant URLs, the visited set, the
frontier of `(url, depth)` pairs, and a log of every URL actually
requested together with the depth of the frontier entry that caused the
request (the log is a proof-level record of the fetches the code
performs; the code itself keeps no such list). -/
structure CrawlState where
  relevant : List String
  visited : List String
  frontier : List (String × Nat)
  fetched : List (String × Nat)
deriving DecidableEq

/-- One iteration of the `while` loop of `find_relevant_urls`
(lines 246-279): pop the front; discard if visited or deeper than
`max_depth`; otherwise mark visited and fetch; on fetch success, record
the URL as relevant if its text matches, and discover links only when
`depth < max_depth`. -/
def crawlStep (web : String → Option FetchedPage) (valid : String → Bool)
    (query_words : List String) (max_depth : Nat) (s : CrawlState) : CrawlState :=
  match s.frontier with
  | [] => s
  | (url, depth) :: rest =>
    if s.visited.contains url = true ∨ max_depth < depth then
      { s with frontier := rest }
    else
      match web url with
      | none =>
          { relevant := s.relevant, visited := url :: s.visited,
            frontier := rest, fetched := s.fetched ++ [(url, depth)] }
      | some page =>
          { relevant :=
              if pageIsRelevant query_words page then s.relevant ++ [url]
              else s.relevant,
            visited := url :: s.visited,
            frontier :=
              if depth < max_depth then
                enqueueLinks valid query_words (url :: s.visited) depth
                  page.links rest
              else rest,
            fetched := s.fetched ++ [(url, depth)] }

/-- The `while to_visit and len(relevant_urls) < 10` loop (line 246), with
explicit fuel. -/
def crawlRun (web : String → Option FetchedPage) (valid : String → Bool)
    (query_words : List String) (max_depth : Nat) :
    Nat → CrawlState → CrawlState
  | 0, s => s
  | fuel + 1, s =>
    if s.frontier.isEmpty = true ∨ 10 ≤ s.relevant.length then s
    else crawlRun web valid query_words max_depth fuel
      (crawlStep web valid query_words max_depth s)

/-- The initial crawl state (lines 239-241): empty results, empty visited
set, frontier `[(base_url, 0)]`. -/
def initCrawlState (base_url : String) : CrawlState :=
  ⟨[], [], [(base_url, 0)], []⟩

/-- Embedding of `find_relevant_urls` (lines 237-281): run the loop from
the seed and return the collected relevant URLs.  The query words are
`query.lower().split()` (line 244). -/
def find_relevant_urls (web : String → Option FetchedPage)
    (valid : String → Bool) (base_url query : String)
    (max_depth fuel : Nat) : List String :=
  (crawlRun web valid (pySplit (pyLower query)) max_depth fuel
    (initCrawlState base_url)).relevant

/-- The discovery-phase fetch log of one `find_relevant_urls` run. -/
def crawlDiscoveryFetches (web : String → Option FetchedPage)
    (valid : String → Bool) (base_url query : String)
    (max_depth fuel : Nat) : List (String × Nat) :=
  (crawlRun web valid (pySplit (pyLower query)) max_depth fuel
    (initCrawlState base_url)).fetched

/-- The URLs submitted to `scrape_url_with_context` by the bounded fetch
pass of `scrape_for_query` (line 296): the first `max_pages` discovered
URLs.  `scrape_for_query` calls `find_relevant_urls` with the fixed
`max_depth=2` (line 288); worker completion order in the pool is
nondeterministic, and the resulting records are sorted by descending
score afterwards (line 305). -/
def scrape_for_query_fetch_urls (web : String → Option FetchedPage)
    (valid : String → Bool) (base_url query : String)
    (max_pages fuel : Nat) : List String :=
  (find_relevant_urls web valid base_url query 2 fuel).take max_pages

/-- Total number of HTTP fetches a `scrape_for_query` call performs:
every discovery-loop request (line 255) plus every fetch-pass request
(line 296). -/
def crawlTotalFetches (web : String → Option FetchedPage)
    (valid : String → Bool) (base_url query : String)
    (max_pages fuel : Nat) : Nat :=
  (crawlDiscoveryFetches web valid base_url query 2 fuel).length +
  (scrape_for_query_fetch_urls web valid base_url query max_pages fuel).length

/-! ## The digest formatter

Embedding of `format_for_context` (dynamic_scraper.py lines 309-374).
The seen-URL set of the code is a Python `set`; it is embedded as a list
used only through membership, so element order is irrelevant, and the
one-by-one `seen_urls.add` calls of the related-link emission loop are
folded into one batch union with the emitted URLs. -/

/-- Python `str(lst)` for the list dict `{'type': ..., 'items': [...]}`
as used in the query-overlap test (line 344).  Python `repr` escaping of
quotes inside items is elided. -/
def pyStrOfContentList (l : ContentList) : String :=
  "\x7b'type': '" ++ (if l.ordered then "ordered" else "unordered") ++
  "', 'items': [" ++ joinWith ", " (l.items.map (fun it => "'" ++ it ++ "'")) ++
  "]\x7d"

/-- Python `s[:n]` slicing on strings. -/
def pyTake (n : Nat) (s : String) : String :=
  ⟨s.data.take n⟩

/-- The related-link filter loop (lines 351-358): keep a link when its URL
is in neither `link_urls_seen` nor `seen_urls` and its text or URL matches
a query word; matching keeps add the URL to `link_urls_seen`. -/
def relevantLinksAux (qwords seen : List String) :
    List PageLink → List String → List PageLink → List PageLink
  | [], _, acc => acc
  | link :: rest, linkSeen, acc =>
    if !linkSeen.contains link.url && !seen.contains link.url then
      if qwords.any (fun w => pyIn w (pyLower link.text) || pyIn w (pyLower link.url)) then
        relevantLinksAux qwords seen rest (link.url :: linkSeen) (acc ++ [link])
      else relevantLinksAux qwords seen rest linkSeen acc
    else relevantLinksAux qwords seen rest linkSeen acc

/-- The deduplicated relevant links of one page record. -/
def relevantLinksOf (qwords seen : List String) (links : List PageLink) :
    List PageLink :=
  relevantLinksAux qwords seen links [] []

/-- State threaded through the per-record loop of `format_for_context`:
the output lines, the seen-URL set, and two proof-level records of
observable output — the cited URLs in emission order (`(Source: ·)` lines
and related-link lines) and the number of page sections emitted. -/
structure DigestState where
  parts : List String
  seen : List String
  citations : List String
  pages : Nat
deriving DecidableEq

/-- The output lines of one emitted page section (lines 327-371): header
and source, optional description, up to 5 numbered step candidates, the
first query-matching list of the first two (up to 3 items), the related
pages block (up to 3 links), an up-to-300-character excerpt, and the
separator. -/
def pagePartsOf (query : String) (data : ScrapedPage) (rl : List PageLink) :
    List String :=
  ["\n[Page: " ++ data.title ++ "]", "(Source: " ++ data.url ++ ")"]
  ++ (if data.description ≠ "" then ["Description: " ++ data.description] else [])
  ++ (if !data.structured_content.steps.isEmpty then
        "\nStep-by-step instructions:" ::
          ((List.enumFrom 1 (data.structured_content.steps.take 5)).map
            (fun p => toString p.1 ++ ". " ++ p.2))
      else [])
  ++ (match (data.structured_content.lists.take 2).find? (fun lst =>
        (pySplit (pyLower query)).any
          (fun w => pyIn w (pyLower (pyStrOfContentList lst)))) with
      | none => []
      | some lst =>
          ("\n" ++ (if lst.ordered then "Ordered" else "Unordered") ++ " list:")
            :: ((lst.items.take 3).map (fun item => "- " ++ item)))
  ++ (if rl.isEmpty then [] else
        "\nRelated pages:" ::
          ((rl.take 3).map (fun l => "- " ++ l.text ++ ": " ++ l.url)))
  ++ (if pyTake 300 data.full_text ≠ "" then
        ["\nBrief excerpt: " ++ pyTake 300 data.full_text ++ "..."] else [])
  ++ ["\n---"]

/-- One iteration of the per-record loop (lines 321-371): skip the record
when its URL is already seen (line 323); otherwise add its URL to the
seen set, emit its section, and add every emitted related-link URL to the
seen set. -/
def processRecord (query : String) (st : DigestState) (data : ScrapedPage) :
    DigestState :=
  if st.seen.contains data.url then st
  else
    let seen1 := data.url :: st.seen
    let rl := relevantLinksOf (pySplit (pyLower query)) seen1
      data.structured_content.links
    { parts := st.parts ++ pagePartsOf query data rl,
      seen := ((rl.take 3).map PageLink.url) ++ seen1,
      citations := st.citations ++ (data.url :: (rl.take 3).map PageLink.url),
      pages := st.pages + 1 }

/-- The digest loop (lines 314-371): header lines — including
`"Found {len(scraped_data)} relevant pages:"` computed on the raw input
list before any deduplication (line 319) — then the per-record fold. -/
def digestRun (query : String) (scraped : List ScrapedPage) : DigestState :=
  scraped.foldl (processRecord query)
    ⟨["=== LIVE WEBSITE CONTENT ===",
      "Query: " ++ query,
      "Found " ++ toString scraped.length ++ " relevant pages:\n"], [], [], 0⟩

/-- Embedding of `format_for_context` (lines 309-374): empty input yields
`""`; otherwise the joined output lines with the closing marker. -/
def format_for_context (scraped : List ScrapedPage) (query : String) : String :=
  if scraped.isEmpty then ""
  else joinWith "\n"
    ((digestRun query scraped).parts ++ ["\n=== END LIVE WEBSITE CONTENT ==="])

/-- The URLs the digest cites, in emission order. -/
def digestCitations (scraped : List ScrapedPage) (query : String) : List String :=
  (digestRun query scraped).citations

/-- The number of page sections the digest emits. -/
def digestPagesEmitted (scraped : List ScrapedPage) (query : String) : Nat :=
  (digestRun query scraped).pages

/-! ### Claim C1 -/

/-- Claim C1, counterexample.  The claim states that `Cache.get` returns
absent iff the elapsed time `e` strictly exceeds the TTL `t`.  For
`ScrapingCache` with `ttl = 5`, an entry stored at time `0` and read at
time `5` (so `e = 5 = t`, hence `e > t` is false) is nonetheless reported
absent: the freshness test is `e < t`, which treats `e = t` as expired. -/
theorem C1_counterexample :
    ((ScrapingCache.get ⟨fun k => if k = "k" then some (42, 0) else none, 5⟩
        5 "k").1 = (none : Option ℕ)) ∧ ¬ ((5 : ℤ) - 0 > 5) := by
  constructor
  · rfl
  · decide

/-- Claim C1, amended: for `ScrapingCache`, `get` returns absent iff the
elapsed time `e = now - timestamp` satisfies `e ≥ ttl` (the code's
freshness test `e < ttl` treats `e = ttl` as already expired), and this is
unaffected by whether the sweep `clear_old` has run beforehand;
`WebsiteCache`'s expiry predicate is the strict `e > duration`. -/
theorem C1_cache_get_absent_iff_expired (α : Type) (c : ScrapingCache α)
    (key : String) (data : α) (timestamp now : ℤ)
    (hhit : c.cache key = some (data, timestamp)) :
    (((c.get now key).1 = none) ↔ now - timestamp ≥ c.ttl) ∧
    ((c.clear_old now).get now key).1 = (c.get now key).1 ∧
    (websiteCacheExpired c.ttl timestamp now = true ↔ now - timestamp > c.ttl) := by
  refine ⟨?_, ?_, ?_⟩
  · by_cases hfresh : now - timestamp < c.ttl
    · simp [ScrapingCache.get, hhit, hfresh]
    · simp [ScrapingCache.get, hhit, hfresh]
      omega
  · by_cases hswept : c.ttl < now - timestamp
    · have h1 : (c.clear_old now).cache key = none := by
        simp [ScrapingCache.clear_old, hhit, hswept]
      have hnotfresh : ¬ (now - timestamp < c.ttl) := by omega
      simp [ScrapingCache.get, h1, hhit, hnotfresh]
    · have h1 : (c.clear_old now).cache key = some (data, timestamp) := by
        simp [ScrapingCache.clear_old, hhit, hswept]
      have h2 : (c.clear_old now).ttl = c.ttl := rfl
      by_cases hfresh : now - timestamp < c.ttl
      · simp [ScrapingCache.get, h1, h2, hhit, hfresh]
      · simp [ScrapingCache.get, h1, h2, hhit, hfresh]
  · simp [websiteCacheExpired]

/-- Claim C1, witness for the amended theorem: a concrete cache with
`ttl = 5`, an entry stored at time `0`, read at time `7`. -/
theorem C1_witness :
    (((ScrapingCache.get ⟨fun k => if k = "k" then some (42, 0) else none, 5⟩
        7 "k").1 = (none : Option ℕ)) ↔ (7 : ℤ) - 0 ≥ 5) := by
  exact (C1_cache_get_absent_iff_expired ℕ
    ⟨fun k => if k = "k" then some (42, 0) else none, 5⟩ "k" 42 0 7 rfl).1

/-! ### Claim C10 -/

/-- Claim C10: `ScrapingCache.get` is not read-only.  With an entry
`(data, timestamp)` present for `key`: if the entry is expired
(`¬ (now - timestamp < ttl)`), `get` deletes the key from the store (the
post-state maps `key` to `none`, every other key unchanged) and returns
`none`; if the entry is fresh, the store is returned unchanged and the
data is returned; and on an absent key the store is unchanged. -/
theorem C10_get_frame_effect (α : Type) (c : ScrapingCache α)
    (key : String) (now : ℤ) :
    (∀ data timestamp, c.cache key = some (data, timestamp) →
      ¬ (now - timestamp < c.ttl) →
      (c.get now key).1 = none ∧
      ((c.get now key).2.cache key = none ∧
       ∀ k, k ≠ key → (c.get now key).2.cache k = c.cache k)) ∧
    (∀ data timestamp, c.cache key = some (data, timestamp) →
      now - timestamp < c.ttl →
      (c.get now key).1 = some data ∧ (c.get now key).2 = c) ∧
    (c.cache key = none → (c.get now key).1 = none ∧ (c.get now key).2 = c) := by
  refine ⟨?_, ?_, ?_⟩
  · intro data timestamp hhit hexp
    simp [ScrapingCache.get, hhit, hexp]
    intro k hk
    simp [hk]
  · intro data timestamp hhit hfresh
    simp [ScrapingCache.get, hhit, hfresh]
  · intro hmiss
    simp [ScrapingCache.get, hmiss]

/-- Claim C10, witness: concrete expired entry (`ttl = 5`, stored at `0`,
read at `9`): after `get` the key is gone from the store, the result is
`none`, and an unrelated key `"z"` still maps to its old value. -/
theorem C10_witness :
    ((ScrapingCache.get ⟨fun k => if k = "k" then some (42, 0) else none, 5⟩
        9 "k").1 = (none : Option ℕ)) ∧
    ((ScrapingCache.get ⟨fun k => if k = "k" then some (42, 0) else none, 5⟩
        9 "k").2.cache "k" = none) ∧
    ((ScrapingCache.get ⟨fun k => if k = "k" then some (42, 0) else none, 5⟩
        9 "k").2.cache "z" =
      (if ("z" : String) = "k" then some ((42 : ℕ), (0 : ℤ)) else none)) := by
  have h := (C10_get_frame_effect ℕ
    ⟨fun k => if k = "k" then some (42, 0) else none, 5⟩ "k" 9).1
    42 0 rfl (by decide)
  exact ⟨h.1, h.2.1, h.2.2 "z" (by decide)⟩

/-! ### Claim C8 -/

/-- The first character produced by `collapseWs` on a non-empty input is
the head character, with whitespace normalized to a single space. -/
theorem collapseWs_head (d : Char) (t : List Char) :
    ∃ r, collapseWs (d :: t) = (if isPySpace d then ' ' else d) :: r := by
  induction t generalizing d with
  | nil =>
    by_cases hd : isPySpace d
    · exact ⟨[], by simp [collapseWs, hd]⟩
    · exact ⟨[], by simp [collapseWs, hd]⟩
  | cons e t ih =>
    by_cases hde : isPySpace d ∧ isPySpace e
    · obtain ⟨r, hr⟩ := ih e
      refine ⟨r, ?_⟩
      rw [collapseWs, if_pos (by simp [hde.1, hde.2]), hr]
      simp [hde.1, hde.2]
    · refine ⟨collapseWs (e :: t), ?_⟩
      rw [collapseWs, if_neg (by simpa [Bool.and_eq_true] using hde)]

/-- The output of `collapseWs` never contains two consecutive whitespace
characters. -/
theorem collapseWs_noWsRun (l : List Char) : NoWsRun (collapseWs l) := by
  induction l with
  | nil => simp [collapseWs, NoWsRun]
  | cons c t ih =>
    cases t with
    | nil =>
      by_cases hc : isPySpace c
      · simp [collapseWs, hc, NoWsRun]
      · simp [collapseWs, hc, NoWsRun]
    | cons d r =>
      by_cases hcd : isPySpace c ∧ isPySpace d
      · rw [NoWsRun, collapseWs, if_pos (by simp [hcd.1, hcd.2])]
        exact ih
      · rw [NoWsRun, collapseWs, if_neg (by simpa [Bool.and_eq_true] using hcd)]
        rw [List.chain'_cons']
        refine ⟨?_, ih⟩
        intro y hy
        obtain ⟨rr, hrr⟩ := collapseWs_head d r
        rw [hrr] at hy
        simp only [List.head?_cons, Option.mem_def, Option.some.injEq] at hy
        by_cases hc : isPySpace c
        · have hd : isPySpace d = false := by
            rcases Bool.eq_false_or_eq_true (isPySpace d) with h | h
            · exact absurd ⟨hc, h⟩ hcd
            · exact h
          right
          rw [← hy]
          simp [hd]
        · left
          simp [hc]

/-- Every character of `collapseWs l` is a character of `l` or a space. -/
theorem mem_collapseWs (l : List Char) : ∀ x ∈ collapseWs l, x ∈ l ∨ x = ' ' := by
  induction l with
  | nil => simp [collapseWs]
  | cons c t ih =>
    cases t with
    | nil =>
      intro x hx
      by_cases hc : isPySpace c
      · simp [collapseWs, hc] at hx
        right; exact hx
      · simp [collapseWs, hc] at hx
        left; simp [hx]
    | cons d r =>
      intro x hx
      by_cases hcd : isPySpace c ∧ isPySpace d
      · rw [collapseWs, if_pos (by simp [hcd.1, hcd.2])] at hx
        rcases ih x hx with h | h
        · left; exact List.mem_cons_of_mem _ h
        · right; exact h
      · rw [collapseWs, if_neg (by simpa [Bool.and_eq_true] using hcd)] at hx
        rcases List.mem_cons.mp hx with h | h
        · by_cases hc : isPySpace c
          · right; simp [hc] at h; exact h
          · left; simp [hc] at h; simp [h]
        · rcases ih x h with h2 | h2
          · left; exact List.mem_cons_of_mem _ h2
          · right; exact h2

/-- On input made only of allow-listed characters, the character-class
substitution of `clean_text` is the identity. -/
theorem subDisallowed_id (l : List Char) (h : ∀ c ∈ l, isAllowedChar c = true) :
    subDisallowed l = l := by
  induction l with
  | nil => rfl
  | cons c t ih =>
    rw [subDisallowed, List.map_cons, if_pos (h c (List.mem_cons_self c t))]
    have := ih (fun d hd => h d (List.mem_cons_of_mem c hd))
    rw [subDisallowed] at this
    rw [this]

/-- Left-stripping yields a suffix. -/
theorem lstripWs_suffix (l : List Char) : lstripWs l <:+ l :=
  List.dropWhile_suffix isPySpace

/-- Right-stripping yields a prefix. -/
theorem rstripWs_prefix_self (l : List Char) : rstripWs l <+: l := by
  rw [rstripWs]
  have h : (l.reverse.dropWhile isPySpace).reverse.reverse <:+ l.reverse := by
    rw [List.reverse_reverse]
    exact List.dropWhile_suffix isPySpace
  exact List.reverse_suffix.mp h

/-- The Boolean run detector agrees with the `Chain'`-based predicate. -/
theorem noWsRun_iff (l : List Char) : NoWsRun l ↔ hasWsRun l = false := by
  induction l with
  | nil => simp [NoWsRun, hasWsRun]
  | cons c t ih =>
    cases t with
    | nil => simp [NoWsRun, hasWsRun]
    | cons d r =>
      rw [NoWsRun, List.chain'_cons, hasWsRun]
      rw [NoWsRun] at ih
      rw [ih]
      constructor
      · rintro ⟨h1, h2⟩
        simp only [Bool.or_eq_false_iff, Bool.and_eq_false_iff]
        refine ⟨?_, h2⟩
        rcases h1 with h | h
        · left; simp [h]
        · right; simp [h]
      · intro h
        simp only [Bool.or_eq_false_iff, Bool.and_eq_false_iff] at h
        refine ⟨?_, h.2⟩
        rcases h.1 with h | h
        · left; exact h
        · right; exact h

/-- Claim C8, counterexample.  The claim states that `clean_text` output
never contains two consecutive whitespace characters, including spaces
introduced by the allow-list substitution.  On input `"a ^b"` the caret is
replaced by a space *after* the whitespace-collapse pass, producing
`"a  b"` with a double space. -/
theorem C8_counterexample : ¬ NoWsRun (clean_text "a ^b").data := by
  rw [noWsRun_iff]
  decide

/-- Claim C8, amended: the whitespace-collapse pass runs before the
allow-list substitution, so for every input containing only allow-listed
characters the output of `clean_text` contains no run of two or more
consecutive whitespace characters; when disallowed characters are present,
their replacement by spaces can create new whitespace runs (see the
counterexample). -/
theorem C8_clean_text_no_ws_run (s : String)
    (hall : ∀ c ∈ s.data, isAllowedChar c = true) :
    NoWsRun (clean_text s).data := by
  by_cases hs : s = ""
  · simp [clean_text, hs, NoWsRun]
  · rw [clean_text, if_neg hs]
    have hmem : ∀ c ∈ collapseWs (stripWs s.data), isAllowedChar c = true := by
      intro c hc
      rcases mem_collapseWs _ c hc with h | h
      · refine hall c ?_
        have h1 : c ∈ lstripWs s.data :=
          (rstripWs_prefix_self (lstripWs s.data)).subset h
        exact (lstripWs_suffix s.data).subset h1
      · rw [h]; decide
    rw [subDisallowed_id _ hmem]
    have hchain : NoWsRun (collapseWs (stripWs s.data)) :=
      collapseWs_noWsRun (stripWs s.data)
    have h1 : NoWsRun (lstripWs (collapseWs (stripWs s.data))) :=
      List.Chain'.suffix hchain (lstripWs_suffix _)
    exact List.Chain'.prefix h1 (rstripWs_prefix_self _)

/-- Claim C8, witness: the amended theorem applied to the concrete
all-allowed input `"ab  c"`. -/
theorem C8_witness : NoWsRun (clean_text "ab  c").data :=
  C8_clean_text_no_ws_run "ab  c" (by decide)

/-! ### Greedy-count lemmas (shared by C2 and C7) -/

/-- The auxiliary count is zero on the empty haystack at any fuel. -/
theorem countOccAux_nil (n : List Char) (fuel : Nat) : countOccAux n fuel [] = 0 := by
  cases fuel <;> rfl

/-- The auxiliary count is independent of the fuel, once the fuel covers
the haystack length. -/
theorem countOccAux_fuel (n : List Char) :
    ∀ f1 f2 (h : List Char), h.length ≤ f1 → h.length ≤ f2 →
      countOccAux n f1 h = countOccAux n f2 h := by
  intro f1
  induction f1 with
  | zero =>
    intro f2 h h1 _
    have : h = [] := List.length_eq_zero.mp (Nat.le_zero.mp h1)
    subst this
    rw [countOccAux_nil, countOccAux_nil]
  | succ f ih =>
    intro f2 h h1 h2
    cases h with
    | nil => rw [countOccAux_nil, countOccAux_nil]
    | cons c t =>
      cases f2 with
      | zero => simp at h2
      | succ g =>
        simp only [List.length_cons, Nat.succ_le_succ_iff] at h1 h2
        rw [countOccAux, countOccAux]
        by_cases hpre : n.isPrefixOf (c :: t) && !n.isEmpty
        · rw [if_pos hpre, if_pos hpre]
          have hlen : (t.drop (n.length - 1)).length ≤ t.length := by
            rw [List.length_drop]; omega
          rw [ih g _ (le_trans hlen h1) (le_trans hlen h2)]
        · rw [if_neg hpre, if_neg hpre]
          exact ih g t h1 h2

/-- Unfolding equation of the greedy count on a non-empty haystack. -/
theorem countOcc_cons (n : List Char) (c : Char) (t : List Char) :
    countOcc n (c :: t) =
      if n.isPrefixOf (c :: t) && !n.isEmpty then
        1 + countOcc n (t.drop (n.length - 1))
      else countOcc n t := by
  have h1 : countOcc n (c :: t) = countOccAux n (t.length + 1) (c :: t) := rfl
  rw [h1, countOccAux]
  by_cases hpre : n.isPrefixOf (c :: t) && !n.isEmpty
  · rw [if_pos hpre, if_pos hpre]
    have h2 : countOccAux n t.length (t.drop (n.length - 1)) =
        countOcc n (t.drop (n.length - 1)) := by
      rw [countOcc]
      exact countOccAux_fuel n t.length _ _ (by rw [List.length_drop]; omega) le_rfl
    rw [h2]
  · rw [if_neg hpre, if_neg hpre]
    rfl

/-- The greedy count of the empty haystack. -/
theorem countOcc_nil (n : List Char) : countOcc n [] = 0 := rfl

/-- For a non-empty needle the emptiness guard in `countOcc` is inert. -/
theorem countOcc_guard_eq (n : List Char) (hn : n ≠ []) (l : List Char) :
    (n.isPrefixOf l && !n.isEmpty) = n.isPrefixOf l := by
  have h : n.isEmpty = false := by
    cases n with
    | nil => exact absurd rfl hn
    | cons a b => rfl
  rw [h]
  simp

/-- Joint package for the greedy count of a non-empty needle: dropping at
most `n.length` leading characters loses at most one occurrence, dropping
any prefix never gains occurrences, and prepending a character never loses
occurrences. -/
theorem countOcc_joint (n : List Char) (hn : n ≠ []) :
    ∀ N : Nat, ∀ h : List Char, h.length ≤ N →
      ((∀ k, k ≤ n.length → countOcc n h ≤ 1 + countOcc n (h.drop k)) ∧
       (∀ m, countOcc n (h.drop m) ≤ countOcc n h) ∧
       (∀ c, countOcc n h ≤ countOcc n (c :: h))) := by
  intro N
  induction N with
  | zero =>
    intro h hlen
    have : h = [] := List.length_eq_zero.mp (Nat.le_zero.mp hlen)
    subst this
    refine ⟨?_, ?_, ?_⟩
    · intro k _; simp [countOcc_nil]
    · intro m; simp [countOcc_nil]
    · intro c
      rw [countOcc_nil, countOcc_cons]
      by_cases hpre : n.isPrefixOf [c] && !n.isEmpty
      · rw [if_pos hpre]; omega
      · rw [if_neg hpre]; omega
  | succ N ih =>
    intro h hlen
    have hA : ∀ k, k ≤ n.length → countOcc n h ≤ 1 + countOcc n (h.drop k) := by
      intro k hk
      cases h with
      | nil => simp [countOcc_nil]
      | cons c t =>
        simp only [List.length_cons, Nat.succ_le_succ_iff] at hlen
        cases k with
        | zero => simp
        | succ j =>
          rw [List.drop_succ_cons]
          rw [countOcc_cons, countOcc_guard_eq n hn]
          by_cases hpre : n.isPrefixOf (c :: t) = true
          · rw [if_pos hpre]
            have hcomp : List.drop (n.length - 1) t =
                List.drop (n.length - 1 - j) (List.drop j t) := by
              rw [List.drop_drop]
              congr 1
              omega
            rw [hcomp]
            have hmono := ((ih (t.drop j)
              (by rw [List.length_drop]; omega)).2.1) (n.length - 1 - j)
            omega
          · rw [if_neg hpre]
            have := ((ih t hlen).1) j (by omega)
            omega
    have hB' : ∀ m, countOcc n (h.drop m) ≤ countOcc n h := by
      intro m
      cases h with
      | nil => simp [countOcc_nil]
      | cons c t =>
        simp only [List.length_cons, Nat.succ_le_succ_iff] at hlen
        cases m with
        | zero => simp
        | succ j =>
          rw [List.drop_succ_cons]
          calc countOcc n (t.drop j) ≤ countOcc n t := ((ih t hlen).2.1) j
            _ ≤ countOcc n (c :: t) := ((ih t hlen).2.2) c
    have hB : ∀ c, countOcc n h ≤ countOcc n (c :: h) := by
      intro c
      rw [countOcc_cons n c h, countOcc_guard_eq n hn]
      by_cases hpre : n.isPrefixOf (c :: h) = true
      · rw [if_pos hpre]
        exact hA (n.length - 1) (by omega)
      · rw [if_neg hpre]
    exact ⟨hA, hB', hB⟩

/-- Dropping at most `n.length` leading characters loses at most one
greedy occurrence. -/
theorem countOcc_le_one_add_drop (n : List Char) (hn : n ≠ []) (h : List Char)
    (k : Nat) (hk : k ≤ n.length) :
    countOcc n h ≤ 1 + countOcc n (h.drop k) :=
  ((countOcc_joint n hn h.length h le_rfl).1) k hk

/-- `isPrefixOf` survives appending on the right. -/
theorem isPrefixOf_append_right (n l u : List Char) (h : n.isPrefixOf l = true) :
    n.isPrefixOf (l ++ u) = true := by
  rw [List.isPrefixOf_iff_prefix] at h ⊢
  exact h.trans (List.prefix_append l u)

/-- Appending to the haystack never decreases the greedy occurrence count
of a non-empty needle. -/
theorem countOcc_le_append (n : List Char) (hn : n ≠ []) :
    ∀ N (h : List Char), h.length ≤ N → ∀ u, countOcc n h ≤ countOcc n (h ++ u) := by
  intro N
  induction N with
  | zero =>
    intro h hlen u
    have : h = [] := List.length_eq_zero.mp (Nat.le_zero.mp hlen)
    subst this
    simp [countOcc_nil]
  | succ N ih =>
    intro h hlen u
    cases h with
    | nil => simp [countOcc_nil]
    | cons c t =>
      simp only [List.length_cons, Nat.succ_le_succ_iff] at hlen
      have happ : (c :: t) ++ u = c :: (t ++ u) := rfl
      rw [happ, countOcc_cons n c t, countOcc_cons n c (t ++ u),
        countOcc_guard_eq n hn, countOcc_guard_eq n hn]
      by_cases hpre2 : n.isPrefixOf (c :: (t ++ u)) = true
      · rw [if_pos hpre2]
        by_cases hpre1 : n.isPrefixOf (c :: t) = true
        · rw [if_pos hpre1]
          have hnlen : n.length ≤ t.length + 1 := by
            have := (List.isPrefixOf_iff_prefix.mp hpre1).length_le
            simpa using this
          have hdistr : (t ++ u).drop (n.length - 1) = t.drop (n.length - 1) ++ u :=
            List.drop_append_of_le_length (by omega)
          rw [hdistr]
          have := ih (t.drop (n.length - 1)) (by rw [List.length_drop]; omega) u
          omega
        · rw [if_neg hpre1]
          calc countOcc n t ≤ countOcc n (t ++ u) := ih t hlen u
            _ ≤ 1 + countOcc n ((t ++ u).drop (n.length - 1)) :=
              countOcc_le_one_add_drop n hn (t ++ u) (n.length - 1) (by omega)
      · rw [if_neg hpre2]
        have hpre1 : ¬ n.isPrefixOf (c :: t) = true := by
          intro hc
          exact hpre2 (by
            have heq : (c :: t) ++ u = c :: (t ++ u) := rfl
            rw [← heq]
            exact isPrefixOf_append_right n (c :: t) u hc)
        rw [if_neg hpre1]
        exact ih t hlen u

/-- The empty needle is a substring of everything. -/
theorem isSubstr_nil_left : ∀ u : List Char, isSubstr [] u = true := by
  intro u
  cases u with
  | nil => rfl
  | cons c t => simp [isSubstr, List.isPrefixOf]

/-- The substring test survives appending on the right. -/
theorem isSubstr_append (n h u : List Char) (hs : isSubstr n h = true) :
    isSubstr n (h ++ u) = true := by
  induction h with
  | nil =>
    rw [isSubstr] at hs
    have : n = [] := by
      cases n with
      | nil => rfl
      | cons a b => simp [List.isEmpty] at hs
    subst this
    exact isSubstr_nil_left u
  | cons c t ih =>
    rw [isSubstr, Bool.or_eq_true] at hs
    have happ : (c :: t) ++ u = c :: (t ++ u) := rfl
    rw [happ, isSubstr, Bool.or_eq_true]
    rcases hs with h1 | h1
    · left
      rw [← happ]
      exact isPrefixOf_append_right n (c :: t) u h1
    · right
      exact ih h1

/-- String-level: Python `in` survives appending to the haystack. -/
theorem pyIn_append (w s u : String) (h : pyIn w s = true) :
    pyIn w (s ++ u) = true := by
  rw [pyIn, String.data_append]
  exact isSubstr_append w.data s.data u.data h

/-- String-level: Python `count` never decreases when the haystack is
extended on the right. -/
theorem pyCount_le_append (w s u : String) : pyCount w s ≤ pyCount w (s ++ u) := by
  rw [pyCount, pyCount, String.data_append]
  by_cases hw : w.data.isEmpty
  · rw [if_pos hw, if_pos hw, List.length_append]
    omega
  · rw [if_neg hw, if_neg hw]
    have hn : w.data ≠ [] := by
      cases hd : w.data with
      | nil => rw [hd] at hw; simp [List.isEmpty] at hw
      | cons a b => simp
    exact countOcc_le_append w.data hn s.data.length s.data le_rfl u.data

/-- The score fold equals the base plus the sum of per-word
contributions. -/
theorem scoreText_foldl_eq (ft : String) (l : List String) (a : Nat) :
    l.foldl (fun score w => if pyIn w ft then score + pyCount w ft else score) a
      = a + (l.map (fun w => if pyIn w ft then pyCount w ft else 0)).sum := by
  induction l generalizing a with
  | nil => simp
  | cons w ws ih =>
    rw [List.foldl_cons, List.map_cons, List.sum_cons]
    by_cases hw : pyIn w ft = true
    · rw [if_pos hw, if_pos hw, ih]
      omega
    · rw [if_neg hw, if_neg hw, ih]
      omega

/-! ### Claim C7 -/

/-- Claim C7: the relevance score is monotone under extension of the
page's rendered full text — for a non-empty query, appending any extra
text `u` (in particular, extra occurrences of a query term) never
decreases the score; and `_calculate_relevance` computes exactly this
score over the lower-cased built full text. -/
theorem C7_relevance_monotone (query : String) (hq : query ≠ "") (s u : String) :
    scoreText query s ≤ scoreText query (s ++ u) ∧
    ∀ c : StructuredContent,
      _calculate_relevance c query = scoreText query (pyLower (_build_full_text c)) := by
  constructor
  · rw [scoreText, scoreText, scoreText_foldl_eq, scoreText_foldl_eq]
    simp only [Nat.zero_add]
    apply List.sum_le_sum
    intro w _
    by_cases hw : pyIn w s = true
    · rw [if_pos hw, if_pos (pyIn_append w s u hw)]
      exact pyCount_le_append w s u
    · rw [if_neg hw]
      exact Nat.zero_le _
  · intro c
    rw [_calculate_relevance, if_neg hq]

/-- Claim C7, witness: the monotonicity theorem applied at the concrete
query `"a"`, text `"x"` and extension `"a"`. -/
theorem C7_witness :
    ("a" : String) ≠ "" ∧ scoreText "a" "x" ≤ scoreText "a" ("x" ++ "a") :=
  ⟨by decide, (C7_relevance_monotone "a" (by decide) "x" "a").1⟩

/-! ### Claim C2 -/

/-- Claim C2 is false of the code as a specification of its behaviour,
but matches the code's own (dead) declaration of intent: the `weights`
dict of `_calculate_relevance` declares title 5.0 > steps 4.0 >
headings 3.0 > lists 2.0 > paragraphs 1.0 but is never applied.  This
theorem evaluates the embedding at the failing input: for query
`"apple"`, a page with `"apple"` only in its title scores `0` (the title
is not even part of the scored text), while a page with `"apple"` once in
a paragraph scores `1` — so a title occurrence does not contribute
strictly more than a paragraph occurrence. -/
theorem C2_title_occurrence_not_weighted :
    (mkScrapedPage "u1" "apple" "" ⟨[], [], [], [], []⟩ "apple").relevance_score = 0 ∧
    (mkScrapedPage "u2" "" "" ⟨[], ["apple pie is very tasty"], [], [], []⟩
        "apple").relevance_score = 1 ∧
    ¬ ((mkScrapedPage "u1" "apple" "" ⟨[], [], [], [], []⟩ "apple").relevance_score >
       (mkScrapedPage "u2" "" "" ⟨[], ["apple pie is very tasty"], [], [], []⟩
          "apple").relevance_score) := by
  refine ⟨by decide, by decide, by decide⟩

/-! ### Crawler lemmas (shared by C3, C4 and C5) -/

/-- Unfolding of one crawl step on an empty frontier. -/
theorem crawlStep_nil (web : String → Option FetchedPage) (valid : String → Bool)
    (qws : List String) (d : Nat) (s : CrawlState) (hfr : s.frontier = []) :
    crawlStep web valid qws d s = s := by
  rw [crawlStep, hfr]

/-- Unfolding of one crawl step on a non-empty frontier. -/
theorem crawlStep_cons (web : String → Option FetchedPage) (valid : String → Bool)
    (qws : List String) (d : Nat) (s : CrawlState) (url : String) (depth : Nat)
    (rest : List (String × Nat)) (hfr : s.frontier = (url, depth) :: rest) :
    crawlStep web valid qws d s =
      if s.visited.contains url = true ∨ d < depth then
        { s with frontier := rest }
      else
        match web url with
        | none =>
            { relevant := s.relevant, visited := url :: s.visited,
              frontier := rest, fetched := s.fetched ++ [(url, depth)] }
        | some page =>
            { relevant :=
                if pageIsRelevant qws page then s.relevant ++ [url]
                else s.relevant,
              visited := url :: s.visited,
              frontier :=
                if depth < d then
                  enqueueLinks valid qws (url :: s.visited) depth page.links rest
                else rest,
              fetched := s.fetched ++ [(url, depth)] } := by
  rw [crawlStep, hfr]

/-- Closed form of one page's link-discovery loop: eligible matching links
end up at the front in reverse discovery order (each was inserted at
index 0), the previous frontier sits in the middle, and eligible
non-matching links are appended at the back in discovery order. -/
theorem enqueueLinks_eq (valid : String → Bool) (qws : List String)
    (visited : List String) (depth : Nat) :
    ∀ (links : List CrawlLink) (frontier : List (String × Nat)),
      enqueueLinks valid qws visited depth links frontier =
        ((links.filter (fun l =>
            (valid l.href && !visited.contains l.href) &&
              linkMatchesQuery qws l)).reverse.map (fun l => (l.href, depth + 1)))
        ++ frontier
        ++ ((links.filter (fun l =>
            (valid l.href && !visited.contains l.href) &&
              !linkMatchesQuery qws l)).map (fun l => (l.href, depth + 1))) := by
  intro links
  induction links with
  | nil =>
    intro frontier
    simp [enqueueLinks]
  | cons l ls ih =>
    intro frontier
    have hcons : enqueueLinks valid qws visited depth (l :: ls) frontier =
        enqueueLinks valid qws visited depth ls
          (if valid l.href && !visited.contains l.href then
            (if linkMatchesQuery qws l then (l.href, depth + 1) :: frontier
             else frontier ++ [(l.href, depth + 1)])
          else frontier) := rfl
    rw [hcons]
    by_cases helig : (valid l.href && !visited.contains l.href) = true
    · by_cases hm : linkMatchesQuery qws l = true
      · have hp1 : ((valid l.href && !visited.contains l.href) &&
            linkMatchesQuery qws l) = true := by rw [helig, hm]; rfl
        have hp2 : ((valid l.href && !visited.contains l.href) &&
            !linkMatchesQuery qws l) = false := by rw [helig, hm]; rfl
        rw [if_pos helig, if_pos hm, ih]
        rw [List.filter_cons, List.filter_cons]
        simp only [hp1, hp2, if_true, if_false, Bool.false_eq_true]
        simp
      · have hp1 : ((valid l.href && !visited.contains l.href) &&
            linkMatchesQuery qws l) = false := by
          rw [helig, Bool.eq_false_iff.mpr hm]; rfl
        have hp2 : ((valid l.href && !visited.contains l.href) &&
            !linkMatchesQuery qws l) = true := by
          rw [helig, Bool.eq_false_iff.mpr hm]; rfl
        rw [if_pos helig, if_neg hm, ih]
        rw [List.filter_cons, List.filter_cons]
        simp only [hp1, hp2, if_true, if_false, Bool.false_eq_true]
        simp
    · have hneg : (valid l.href && !visited.contains l.href) = false :=
        Bool.eq_false_iff.mpr helig
      have hp1 : ((valid l.href && !visited.contains l.href) &&
          linkMatchesQuery qws l) = false := by rw [hneg]; rfl
      have hp2 : ((valid l.href && !visited.contains l.href) &&
          !linkMatchesQuery qws l) = false := by rw [hneg]; rfl
      rw [if_neg helig, ih]
      rw [List.filter_cons, List.filter_cons]
      simp only [hp1, hp2, if_false, Bool.false_eq_true]

/-- Every entry of the enriched frontier either was already queued or
carries depth `depth + 1`. -/
theorem mem_enqueueLinks (valid : String → Bool) (qws : List String)
    (visited : List String) (depth : Nat) (links : List CrawlLink)
    (frontier : List (String × Nat)) (e : String × Nat)
    (he : e ∈ enqueueLinks valid qws visited depth links frontier) :
    e ∈ frontier ∨ e.2 = depth + 1 := by
  rw [enqueueLinks_eq] at he
  rcases List.mem_append.mp he with h | h
  · rcases List.mem_append.mp h with h1 | h1
    · rcases List.mem_map.mp h1 with ⟨l, _, hl⟩
      right
      rw [← hl]
    · left; exact h1
  · rcases List.mem_map.mp h with ⟨l, _, hl⟩
    right
    rw [← hl]

/-- One crawl step adds at most one URL to the relevant list. -/
theorem crawlStep_relevant_le (web : String → Option FetchedPage)
    (valid : String → Bool) (qws : List String) (d : Nat) (s : CrawlState) :
    (crawlStep web valid qws d s).relevant.length ≤ s.relevant.length + 1 := by
  cases hfr : s.frontier with
  | nil =>
    rw [crawlStep_nil web valid qws d s hfr]
    omega
  | cons p rest =>
    obtain ⟨url, depth⟩ := p
    rw [crawlStep_cons web valid qws d s url depth rest hfr]
    by_cases hd : s.visited.contains url = true ∨ d < depth
    · rw [if_pos hd]
      simp
    · rw [if_neg hd]
      cases hw : web url with
      | none => simp
      | some page =>
        by_cases hrel : pageIsRelevant qws page = true
        · simp [hrel]
        · simp [hrel]

/-- One crawl step preserves the frontier/fetch-log depth bound. -/
theorem crawlStep_depth_inv (web : String → Option FetchedPage)
    (valid : String → Bool) (qws : List String) (d : Nat) (s : CrawlState)
    (hf : ∀ e ∈ s.frontier, e.2 ≤ d) (hl : ∀ e ∈ s.fetched, e.2 ≤ d) :
    (∀ e ∈ (crawlStep web valid qws d s).frontier, e.2 ≤ d) ∧
    (∀ e ∈ (crawlStep web valid qws d s).fetched, e.2 ≤ d) := by
  cases hfr : s.frontier with
  | nil =>
    rw [crawlStep_nil web valid qws d s hfr]
    exact ⟨hf, hl⟩
  | cons p rest =>
    obtain ⟨url, depth⟩ := p
    have hdep : depth ≤ d :=
      hf (url, depth) (by rw [hfr]; exact List.mem_cons_self _ _)
    have hrest : ∀ e ∈ rest, e.2 ≤ d := by
      intro e he
      exact hf e (by rw [hfr]; exact List.mem_cons_of_mem _ he)
    rw [crawlStep_cons web valid qws d s url depth rest hfr]
    by_cases hd : s.visited.contains url = true ∨ d < depth
    · rw [if_pos hd]
      exact ⟨hrest, hl⟩
    · rw [if_neg hd]
      have hfetched : ∀ e ∈ s.fetched ++ [(url, depth)], e.2 ≤ d := by
        intro e he
        rcases List.mem_append.mp he with h | h
        · exact hl e h
        · rcases List.mem_singleton.mp h with rfl
          exact hdep
      cases hw : web url with
      | none => exact ⟨hrest, hfetched⟩
      | some page =>
        refine ⟨?_, hfetched⟩
        simp only []
        by_cases hlt : depth < d
        · rw [if_pos hlt]
          intro e he
          rcases mem_enqueueLinks valid qws (url :: s.visited) depth
            page.links rest e he with h | h
          · exact hrest e h
          · omega
        · rw [if_neg hlt]
          exact hrest

/-- The crawl loop preserves the frontier/fetch-log depth bound. -/
theorem crawlRun_depth_inv (web : String → Option FetchedPage)
    (valid : String → Bool) (qws : List String) (d : Nat) :
    ∀ (fuel : Nat) (s : CrawlState),
      (∀ e ∈ s.frontier, e.2 ≤ d) → (∀ e ∈ s.fetched, e.2 ≤ d) →
      (∀ e ∈ (crawlRun web valid qws d fuel s).frontier, e.2 ≤ d) ∧
      (∀ e ∈ (crawlRun web valid qws d fuel s).fetched, e.2 ≤ d) := by
  intro fuel
  induction fuel with
  | zero => intro s h1 h2; exact ⟨h1, h2⟩
  | succ f ih =>
    intro s h1 h2
    rw [crawlRun]
    by_cases hstop : s.frontier.isEmpty = true ∨ 10 ≤ s.relevant.length
    · rw [if_pos hstop]; exact ⟨h1, h2⟩
    · rw [if_neg hstop]
      obtain ⟨h1', h2'⟩ := crawlStep_depth_inv web valid qws d s h1 h2
      exact ih _ h1' h2'

/-- The crawl loop never grows the relevant list beyond the hard-coded
cap of 10. -/
theorem crawlRun_relevant_le (web : String → Option FetchedPage)
    (valid : String → Bool) (qws : List String) (d : Nat) :
    ∀ (fuel : Nat) (s : CrawlState), s.relevant.length ≤ 10 →
      (crawlRun web valid qws d fuel s).relevant.length ≤ 10 := by
  intro fuel
  induction fuel with
  | zero => intro s h; exact h
  | succ f ih =>
    intro s h
    rw [crawlRun]
    by_cases hstop : s.frontier.isEmpty = true ∨ 10 ≤ s.relevant.length
    · rw [if_pos hstop]; exact h
    · rw [if_neg hstop]
      have hlt : ¬ 10 ≤ s.relevant.length := fun hc => hstop (Or.inr hc)
      have := crawlStep_relevant_le web valid qws d s
      exact ih _ (by omega)

/-! ### Claim C3 -/

/-- Claim C3, counterexample.  The claim states a crawl fetches at most
`maxPages` pages in total and that the discovery loop stops when the
result count reaches `maxPages`.  On a two-page site with `max_pages = 1`
the code performs 3 fetches: the discovery loop fetches both pages (its
own stop threshold is the hard-coded 10, not `max_pages`), and the fetch
pass re-fetches the one relevant URL. -/
theorem C3_counterexample :
    crawlTotalFetches
      (fun u => if u = "s" then some ⟨"q", [⟨"a", "z"⟩]⟩
        else if u = "a" then some ⟨"x", []⟩ else none)
      (fun _ => true) "s" "q" 1 10 = 3 ∧ ¬ ((3 : Nat) ≤ 1) := by
  constructor
  · decide
  · decide

/-- Claim C3, amended: the bounded fetch pass of `scrape_for_query`
fetches at most `max_pages` pages (it takes the first `max_pages`
discovered URLs), and the discovery loop stops as soon as the collected
relevant-URL count reaches the hard-coded cap 10 — not `maxPages` — so it
collects at most 10 URLs; discovery-phase fetches are not bounded by
`max_pages`, and the crawl's total fetch count can exceed it. -/
theorem C3_page_cap :
    (∀ (web : String → Option FetchedPage) (valid : String → Bool)
        (base query : String) (p fuel : Nat),
        (scrape_for_query_fetch_urls web valid base query p fuel).length ≤ p) ∧
    (∀ (web : String → Option FetchedPage) (valid : String → Bool)
        (qws : List String) (d fuel : Nat) (s : CrawlState),
        10 ≤ s.relevant.length → crawlRun web valid qws d fuel s = s) ∧
    (∀ (web : String → Option FetchedPage) (valid : String → Bool)
        (base query : String) (d fuel : Nat),
        (find_relevant_urls web valid base query d fuel).length ≤ 10) := by
  refine ⟨?_, ?_, ?_⟩
  · intro web valid base query p fuel
    rw [scrape_for_query_fetch_urls, List.length_take]
    omega
  · intro web valid qws d fuel s h10
    cases fuel with
    | zero => rfl
    | succ f =>
      rw [crawlRun, if_pos (Or.inr h10)]
  · intro web valid base query d fuel
    rw [find_relevant_urls]
    exact crawlRun_relevant_le web valid (pySplit (pyLower query)) d fuel
      (initCrawlState base) (by simp [initCrawlState])

/-- Claim C3, witness: the loop-stop clause applied at a concrete state
that already holds 10 relevant URLs, plus the fetch-pass cap at a
concrete discovery list. -/
theorem C3_witness :
    crawlRun (fun _ => none) (fun _ => true) [] 2 5
        ⟨["1", "2", "3", "4", "5", "6", "7", "8", "9", "10"], [], [("x", 0)], []⟩ =
      ⟨["1", "2", "3", "4", "5", "6", "7", "8", "9", "10"], [], [("x", 0)], []⟩ ∧
    (scrape_for_query_fetch_urls (fun _ => none) (fun _ => true) "s" "q" 1 0).length ≤ 1 :=
  ⟨C3_page_cap.2.1 (fun _ => none) (fun _ => true) [] 2 5 _ (by decide),
   C3_page_cap.1 (fun _ => none) (fun _ => true) "s" "q" 1 0⟩

/-! ### Claim C4 -/

/-- Claim C4: every frontier entry ever reachable from the initial state
has depth at most `max_depth` (the seed at depth 0, links enqueued only
when the current depth is strictly below the cap), every fetch the loop
performs is for an entry of depth at most `max_depth`, and a popped entry
with depth above the cap is discarded without being processed (no fetch,
no result, no new links — only the pop). -/
theorem C4_frontier_depth_bound (web : String → Option FetchedPage)
    (valid : String → Bool) (qws : List String) (d : Nat) (base : String) :
    (∀ fuel, ∀ e ∈ (crawlRun web valid qws d fuel (initCrawlState base)).frontier,
        e.2 ≤ d) ∧
    (∀ fuel, ∀ e ∈ (crawlRun web valid qws d fuel (initCrawlState base)).fetched,
        e.2 ≤ d) ∧
    (∀ (s : CrawlState) url depth rest, s.frontier = (url, depth) :: rest →
        d < depth → crawlStep web valid qws d s = { s with frontier := rest }) := by
  have hinit1 : ∀ e ∈ (initCrawlState base).frontier, e.2 ≤ d := by
    intro e he
    rcases List.mem_singleton.mp he with rfl
    exact Nat.zero_le d
  have hinit2 : ∀ e ∈ (initCrawlState base).fetched, e.2 ≤ d := by
    intro e he
    simp [initCrawlState] at he
  refine ⟨?_, ?_, ?_⟩
  · intro fuel
    exact (crawlRun_depth_inv web valid qws d fuel (initCrawlState base)
      hinit1 hinit2).1
  · intro fuel
    exact (crawlRun_depth_inv web valid qws d fuel (initCrawlState base)
      hinit1 hinit2).2
  · intro s url depth rest hfr hd
    rw [crawlStep_cons web valid qws d s url depth rest hfr,
      if_pos (Or.inr hd)]

/-- Claim C4, witness: the discard clause at a concrete over-deep entry
(`depth 5 > max_depth 2`): the step only pops the entry, with no fetch
recorded and no change to results or the visited set. -/
theorem C4_witness :
    (2 : Nat) < 5 ∧
    crawlStep (fun _ => none) (fun _ => true) [] 2 ⟨[], [], [("u", 5)], []⟩ =
      ⟨[], [], [], []⟩ :=
  ⟨by decide,
   (C4_frontier_depth_bound (fun _ => none) (fun _ => true) [] 2 "s").2.2
     ⟨[], [], [("u", 5)], []⟩ "u" 5 [] rfl (by decide)⟩

/-! ### Claim C5 -/

/-- Claim C5, counterexample.  The claim states that matching links keep
their discovery order at the front of the frontier.  With two matching
links discovered in the order `q1`, `q2`, the repeated `insert(0, ·)`
leaves them in the frontier as `q2, q1` — the reverse of discovery
order. -/
theorem C5_counterexample :
    enqueueLinks (fun _ => true) ["q"] [] 0
        [⟨"http://s/q1", "q one"⟩, ⟨"http://s/q2", "q two"⟩] [] =
      [("http://s/q2", 1), ("http://s/q1", 1)] ∧
    [("http://s/q2", 1), ("http://s/q1", 1)] ≠
      [("http://s/q1", 1), ("http://s/q2", 1)] := by
  constructor
  · decide
  · decide

/-- Claim C5, amended: each eligible query-matching link is inserted at
the front of the frontier and each eligible non-matching link is appended
at the back; among one page's matching links the resulting frontier order
is the *reverse* of discovery order (each is inserted at index 0), while
the non-matching links at the back preserve discovery order. -/
theorem C5_link_priority_order (valid : String → Bool) (qws : List String)
    (visited : List String) (depth : Nat) (links : List CrawlLink)
    (frontier : List (String × Nat)) :
    enqueueLinks valid qws visited depth links frontier =
      ((links.filter (fun l =>
          (valid l.href && !visited.contains l.href) &&
            linkMatchesQuery qws l)).reverse.map (fun l => (l.href, depth + 1)))
      ++ frontier
      ++ ((links.filter (fun l =>
          (valid l.href && !visited.contains l.href) &&
            !linkMatchesQuery qws l)).map (fun l => (l.href, depth + 1))) :=
  enqueueLinks_eq valid qws visited depth links frontier

/-! ### Digest lemmas (shared by C6 and C9) -/

/-- Bridge between the Boolean membership used by the embedding and
propositional membership. -/
theorem contains_eq_true_iff (l : List String) (a : String) :
    l.contains a = true ↔ a ∈ l :=
  List.elem_iff

/-- Negative form of the membership bridge. -/
theorem contains_eq_false_iff (l : List String) (a : String) :
    l.contains a = false ↔ a ∉ l := by
  constructor
  · intro h hm
    rw [(contains_eq_true_iff l a).mpr hm] at h
    cases h
  · intro h
    cases hc : l.contains a with
    | false => rfl
    | true => exact absurd ((contains_eq_true_iff l a).mp hc) h

/-- Invariant of the related-link filter loop: the accumulated URLs stay
duplicate-free and outside the seen set. -/
theorem relevantLinksAux_spec (qwords seen : List String) :
    ∀ (links : List PageLink) (linkSeen : List String) (acc : List PageLink),
      (acc.map PageLink.url).Nodup →
      (∀ u ∈ acc.map PageLink.url, u ∈ linkSeen) →
      (∀ u ∈ acc.map PageLink.url, u ∉ seen) →
      (((relevantLinksAux qwords seen links linkSeen acc).map PageLink.url).Nodup ∧
       ∀ u ∈ (relevantLinksAux qwords seen links linkSeen acc).map PageLink.url,
         u ∉ seen) := by
  intro links
  induction links with
  | nil =>
    intro linkSeen acc h1 _ h3
    rw [relevantLinksAux]
    exact ⟨h1, h3⟩
  | cons link rest ih =>
    intro linkSeen acc h1 h2 h3
    rw [relevantLinksAux]
    by_cases hc : (!linkSeen.contains link.url && !seen.contains link.url) = true
    · rw [if_pos hc]
      rw [Bool.and_eq_true] at hc
      obtain ⟨hca, hcb⟩ := hc
      have hca' : linkSeen.contains link.url = false := by simpa using hca
      have hcb' : seen.contains link.url = false := by simpa using hcb
      have hc1 : link.url ∉ linkSeen := (contains_eq_false_iff _ _).mp hca'
      have hc2 : link.url ∉ seen := (contains_eq_false_iff _ _).mp hcb'
      by_cases hm : (qwords.any (fun w =>
          pyIn w (pyLower link.text) || pyIn w (pyLower link.url))) = true
      · rw [if_pos hm]
        have hne : link.url ∉ acc.map PageLink.url := fun hmem => hc1 (h2 _ hmem)
        refine ih (link.url :: linkSeen) (acc ++ [link]) ?_ ?_ ?_
        · rw [List.map_append]
          exact List.Nodup.append h1 (List.nodup_singleton _)
            (List.disjoint_singleton.mpr hne)
        · intro u hu
          rw [List.map_append] at hu
          rcases List.mem_append.mp hu with h | h
          · exact List.mem_cons_of_mem _ (h2 u h)
          · rcases List.mem_singleton.mp h with rfl
            exact List.mem_cons_self _ _
        · intro u hu
          rw [List.map_append] at hu
          rcases List.mem_append.mp hu with h | h
          · exact h3 u h
          · rcases List.mem_singleton.mp h with rfl
            exact hc2
      · rw [if_neg hm]
        exact ih linkSeen acc h1 h2 h3
    · rw [if_neg hc]
      exact ih linkSeen acc h1 h2 h3

/-- The deduplicated relevant links of one record have duplicate-free URLs,
all outside the seen set used for the filter. -/
theorem relevantLinksOf_spec (qwords seen : List String) (links : List PageLink) :
    ((relevantLinksOf qwords seen links).map PageLink.url).Nodup ∧
    ∀ u ∈ (relevantLinksOf qwords seen links).map PageLink.url, u ∉ seen := by
  refine relevantLinksAux_spec qwords seen links [] [] ?_ ?_ ?_
  · simp
  · intro u hu; simp at hu
  · intro u hu; simp at hu

/-- The at-most-three emitted related-link URLs inherit both properties. -/
theorem emittedUrls_spec (qwords seen : List String) (links : List PageLink) :
    (((relevantLinksOf qwords seen links).take 3).map PageLink.url).Nodup ∧
    ∀ u ∈ ((relevantLinksOf qwords seen links).take 3).map PageLink.url,
      u ∉ seen := by
  obtain ⟨h1, h2⟩ := relevantLinksOf_spec qwords seen links
  constructor
  · rw [List.map_take]
    exact (List.take_sublist _ _).nodup h1
  · intro u hu
    rw [List.map_take] at hu
    exact h2 u (List.take_subset _ _ hu)

/-- A record whose URL is already seen is skipped entirely: the state is
unchanged (line 323's `continue`). -/
theorem processRecord_skip (query : String) (st : DigestState)
    (data : ScrapedPage) (h : st.seen.contains data.url = true) :
    processRecord query st data = st := by
  rw [processRecord, if_pos h]

/-- Processing one record preserves citation uniqueness and the fact that
every cited URL is in the seen set. -/
theorem processRecord_inv (query : String) (st : DigestState) (data : ScrapedPage)
    (h1 : st.citations.Nodup) (h2 : ∀ u ∈ st.citations, u ∈ st.seen) :
    (processRecord query st data).citations.Nodup ∧
    ∀ u ∈ (processRecord query st data).citations,
      u ∈ (processRecord query st data).seen := by
  by_cases hseen : st.seen.contains data.url = true
  · rw [processRecord_skip query st data hseen]
    exact ⟨h1, h2⟩
  · rw [processRecord, if_neg hseen]
    simp only []
    have hnot : data.url ∉ st.seen :=
      (contains_eq_false_iff _ _).mp (Bool.eq_false_iff.mpr hseen)
    obtain ⟨hE1, hE2⟩ := emittedUrls_spec (pySplit (pyLower query))
      (data.url :: st.seen) data.structured_content.links
    constructor
    · apply List.Nodup.append h1
      · rw [List.nodup_cons]
        refine ⟨?_, hE1⟩
        intro hmem
        exact hE2 data.url hmem (List.mem_cons_self _ _)
      · intro u hu hv
        rcases List.mem_cons.mp hv with heq | hvE
        · exact hnot (heq ▸ h2 u hu)
        · exact hE2 u hvE (List.mem_cons_of_mem _ (h2 u hu))
    · intro u hu
      rcases List.mem_append.mp hu with h | h
      · exact List.mem_append.mpr
          (Or.inr (List.mem_cons_of_mem _ (h2 u h)))
      · rcases List.mem_cons.mp h with heq | h
        · rw [heq]
          exact List.mem_append.mpr (Or.inr (List.mem_cons_self _ _))
        · exact List.mem_append.mpr (Or.inl h)

/-- The per-record fold preserves both citation invariants. -/
theorem digestFold_inv (query : String) :
    ∀ (l : List ScrapedPage) (st : DigestState),
      st.citations.Nodup → (∀ u ∈ st.citations, u ∈ st.seen) →
      (l.foldl (processRecord query) st).citations.Nodup ∧
      ∀ u ∈ (l.foldl (processRecord query) st).citations,
        u ∈ (l.foldl (processRecord query) st).seen := by
  intro l
  induction l with
  | nil => intro st h1 h2; exact ⟨h1, h2⟩
  | cons r rest ih =>
    intro st h1 h2
    rw [List.foldl_cons]
    obtain ⟨g1, g2⟩ := processRecord_inv query st r h1 h2
    exact ih _ g1 g2

/-- Processing one record only grows the seen set. -/
theorem processRecord_seen_mono (query : String) (st : DigestState)
    (data : ScrapedPage) (u : String) (h : u ∈ st.seen) :
    u ∈ (processRecord query st data).seen := by
  by_cases hseen : st.seen.contains data.url = true
  · rw [processRecord_skip query st data hseen]
    exact h
  · rw [processRecord, if_neg hseen]
    simp only []
    exact List.mem_append.mpr (Or.inr (List.mem_cons_of_mem _ h))

/-- After a record is processed, its URL is in the seen set (whether the
record was emitted or skipped). -/
theorem processRecord_url_seen (query : String) (st : DigestState)
    (data : ScrapedPage) :
    data.url ∈ (processRecord query st data).seen := by
  by_cases hseen : st.seen.contains data.url = true
  · rw [processRecord_skip query st data hseen]
    exact (contains_eq_true_iff _ _).mp hseen
  · rw [processRecord, if_neg hseen]
    simp only []
    exact List.mem_append.mpr (Or.inr (List.mem_cons_self _ _))

/-- Processing one record emits at most one page section. -/
theorem processRecord_pages_le (query : String) (st : DigestState)
    (data : ScrapedPage) :
    (processRecord query st data).pages ≤ st.pages + 1 := by
  by_cases hseen : st.seen.contains data.url = true
  · rw [processRecord_skip query st data hseen]
    omega
  · rw [processRecord, if_neg hseen]

/-- Processing one record never removes output lines. -/
theorem processRecord_parts_mono (query : String) (st : DigestState)
    (data : ScrapedPage) (p : String) (h : p ∈ st.parts) :
    p ∈ (processRecord query st data).parts := by
  by_cases hseen : st.seen.contains data.url = true
  · rw [processRecord_skip query st data hseen]
    exact h
  · rw [processRecord, if_neg hseen]
    simp only []
    exact List.mem_append.mpr (Or.inl h)

/-- The fold only grows the seen set. -/
theorem digestFold_seen_mono (query : String) :
    ∀ (l : List ScrapedPage) (st : DigestState) (u : String), u ∈ st.seen →
      u ∈ (l.foldl (processRecord query) st).seen := by
  intro l
  induction l with
  | nil => intro st u h; exact h
  | cons r rest ih =>
    intro st u h
    rw [List.foldl_cons]
    exact ih _ u (processRecord_seen_mono query st r u h)

/-- The fold never removes output lines. -/
theorem digestFold_parts_mono (query : String) :
    ∀ (l : List ScrapedPage) (st : DigestState) (p : String), p ∈ st.parts →
      p ∈ (l.foldl (processRecord query) st).parts := by
  intro l
  induction l with
  | nil => intro st p h; exact h
  | cons r rest ih =>
    intro st p h
    rw [List.foldl_cons]
    exact ih _ p (processRecord_parts_mono query st r p h)

/-- The fold emits at most one page section per input record. -/
theorem digestFold_pages_le (query : String) :
    ∀ (l : List ScrapedPage) (st : DigestState),
      (l.foldl (processRecord query) st).pages ≤ st.pages + l.length := by
  intro l
  induction l with
  | nil => intro st; simp
  | cons r rest ih =>
    intro st
    rw [List.foldl_cons]
    have h1 := processRecord_pages_le query st r
    have h2 := ih (processRecord query st r)
    simp only [List.length_cons]
    omega

/-! ### Claim C6 -/

/-- Claim C6: the digest cites every URL at most once — the citation list
(all `(Source: ·)` URLs and related-link URLs, in emission order) is
duplicate-free for every input list and query — and a record whose URL
was already emitted (as an earlier source or related link) is skipped
entirely, leaving the state unchanged. -/
theorem C6_citation_dedup :
    (∀ (scraped : List ScrapedPage) (query : String),
        (digestCitations scraped query).Nodup) ∧
    (∀ (query : String) (st : DigestState) (data : ScrapedPage),
        st.seen.contains data.url = true → processRecord query st data = st) := by
  constructor
  · intro scraped query
    rw [digestCitations, digestRun]
    refine (digestFold_inv query scraped _ ?_ ?_).1
    · simp
    · intro u hu
      simp at hu
  · intro query st data hseen
    exact processRecord_skip query st data hseen

/-- Claim C6, witness: the skip clause at a concrete already-seen record,
and citation uniqueness at a concrete duplicate input list. -/
theorem C6_witness :
    (["u"] : List String).contains "u" = true ∧
    processRecord "q" ⟨[], ["u"], [], 0⟩ ⟨"u", "", "", ⟨[], [], [], [], []⟩, "", 0⟩ =
      ⟨[], ["u"], [], 0⟩ ∧
    (digestCitations
      [⟨"u", "", "", ⟨[], [], [], [], []⟩, "", 0⟩,
       ⟨"u", "", "", ⟨[], [], [], [], []⟩, "", 0⟩] "q").Nodup :=
  ⟨by decide,
   C6_citation_dedup.2 "q" ⟨[], ["u"], [], 0⟩
     ⟨"u", "", "", ⟨[], [], [], [], []⟩, "", 0⟩ (by decide),
   C6_citation_dedup.1
     [⟨"u", "", "", ⟨[], [], [], [], []⟩, "", 0⟩,
      ⟨"u", "", "", ⟨[], [], [], [], []⟩, "", 0⟩] "q"⟩

/-! ### Claim C9 -/

/-- Claim C9: the page count announced in the digest header is the length
of the raw input list, counted before URL deduplication; and for an
input containing two records with the same URL the announced count
strictly exceeds the number of page sections actually emitted. -/
theorem C9_announced_count (query : String) (a b c : List ScrapedPage)
    (x y : ScrapedPage) (hdup : x.url = y.url) :
    ("Found " ++ toString (a ++ x :: b ++ y :: c).length ++ " relevant pages:\n")
        ∈ (digestRun query (a ++ x :: b ++ y :: c)).parts ∧
    digestPagesEmitted (a ++ x :: b ++ y :: c) query <
      (a ++ x :: b ++ y :: c).length := by
  constructor
  · rw [digestRun]
    apply digestFold_parts_mono
    simp
  · rw [digestPagesEmitted, digestRun]
    have hsplit : a ++ x :: b ++ y :: c = (a ++ x :: b) ++ (y :: c) := by
      simp
    rw [hsplit, List.foldl_append]
    have hsplit2 : a ++ x :: b = a ++ [x] ++ b := by simp
    have hx_seen : ∀ st : DigestState,
        x.url ∈ ((a ++ x :: b).foldl (processRecord query) st).seen := by
      intro st
      rw [hsplit2, List.foldl_append, List.foldl_append]
      apply digestFold_seen_mono
      have : ([x].foldl (processRecord query) (a.foldl (processRecord query) st))
          = processRecord query (a.foldl (processRecord query) st) x := rfl
      rw [this]
      exact processRecord_url_seen query _ x
    rw [List.foldl_cons]
    have hskip : processRecord query
        ((a ++ x :: b).foldl (processRecord query)
          ⟨["=== LIVE WEBSITE CONTENT ===",
            "Query: " ++ query,
            "Found " ++ toString (a ++ x :: b ++ y :: c).length ++
              " relevant pages:\n"], [], [], 0⟩) y =
        ((a ++ x :: b).foldl (processRecord query)
          ⟨["=== LIVE WEBSITE CONTENT ===",
            "Query: " ++ query,
            "Found " ++ toString (a ++ x :: b ++ y :: c).length ++
              " relevant pages:\n"], [], [], 0⟩) := by
      apply processRecord_skip
      rw [contains_eq_true_iff]
      rw [← hdup]
      exact hx_seen _
    rw [hskip]
    have h1 := digestFold_pages_le query (a ++ x :: b)
      (⟨["=== LIVE WEBSITE CONTENT ===",
        "Query: " ++ query,
        "Found " ++ toString (a ++ x :: b ++ y :: c).length ++
          " relevant pages:\n"], [], [], 0⟩ : DigestState)
    have h2 := digestFold_pages_le query c
      ((a ++ x :: b).foldl (processRecord query)
        ⟨["=== LIVE WEBSITE CONTENT ===",
          "Query: " ++ query,
          "Found " ++ toString (a ++ x :: b ++ y :: c).length ++
            " relevant pages:\n"], [], [], 0⟩)
    simp only [List.length_append, List.length_cons] at h1 h2 ⊢
    omega

/-- Claim C9, witness: a concrete two-record input with the same URL —
the header announces 2 pages while only 1 section is emitted. -/
theorem C9_witness :
    ("u" : String) = "u" ∧
    digestPagesEmitted
      [⟨"u", "", "", ⟨[], [], [], [], []⟩, "", 0⟩,
       ⟨"u", "", "", ⟨[], [], [], [], []⟩, "", 0⟩] "q" <
      ([⟨"u", "", "", ⟨[], [], [], [], []⟩, "", 0⟩,
        ⟨"u", "", "", ⟨[], [], [], [], []⟩, "", 0⟩] : List ScrapedPage).length :=
  ⟨rfl,
   (C9_announced_count "q" [] [] []
     ⟨"u", "", "", ⟨[], [], [], [], []⟩, "", 0⟩
     ⟨"u", "", "", ⟨[], [], [], [], []⟩, "", 0⟩ rfl).2⟩
